import Mathlib

/-!
Shallow embedding of the bgit identity-management core (Go) in Lean 4.

The embedding covers the config data model (`User`, `Workspace`, `Binding`,
`Config`), the config-store mutation and lookup operations (`AddUser`,
`AddWorkspace`, `AddBinding`, `FindUser*`, `FindWorkspaceByPath`,
`FindBindingByPath`, `CleanupInvalidPaths`), the path containment test
`isPathInside`, repository-root discovery `findGitRoot`, and the identity
resolution engine `ResolveIdentity`.

Go strings are modelled as Lean `String`s; Go's `strings.HasPrefix`,
`strings.HasSuffix` and `strings.TrimSuffix` are modelled on the underlying
character lists, which matches Go's byte-slice semantics for the ASCII paths
involved. Filesystem- and OS-dependent standard library calls
(`filepath.Abs`, `filepath.Dir`, `os.Stat`) are parameters of the embedding,
collected in `FSEnv`: the repository's own logic is translated from the
source, while the environment is left abstract and instantiated concretely
in witnesses. Go methods that mutate their receiver are modelled as pure
functions returning the new value (and `Except` for fallible ones, the
error carrying the Go error-message string).
-/

namespace BGit

/-- Go `strings.HasPrefix s pre` (named `goStartsWith` here): `len(s) >= len(pre) && s[:len(pre)] == pre`. -/
def goStartsWith (s pre : String) : Bool :=
  pre.data.isPrefixOf s.data

/-- Go `strings.HasSuffix s suf`. -/
def goHasSuffix (s suf : String) : Bool :=
  suf.data.isSuffixOf s.data

/-- Go `strings.TrimSuffix s suf`: drops `suf` from the end when present. -/
def goTrimSuffix (s suf : String) : String :=
  if goHasSuffix s suf then String.mk (s.data.take (s.data.length - suf.data.length)) else s

/-- POSIX `filepath.Separator`. -/
def sep : String := "/"

/-- A Git identity record (`config.User`). -/
structure User where
  Alias : String
  Name : String
  Email : String
  GitHubUsername : String
  SSHKeyPath : String
deriving DecidableEq, Repr

/-- A directory auto-bound to a user identity (`config.Workspace`). -/
structure Workspace where
  Path : String
  User : String
deriving DecidableEq, Repr

/-- A repository root bound to a user identity (`config.Binding`). -/
structure Binding where
  Path : String
  User : String
deriving DecidableEq, Repr

/-- The bgit configuration aggregate (`config.Config`). -/
structure Config where
  Version : String
  ActiveUser : String
  Users : List User
  Workspaces : List Workspace
  Bindings : List Binding
deriving DecidableEq, Repr

/-- The filesystem / OS environment the core consults: `filepath.Abs`
(`none` models a resolution error), whether `os.Stat` succeeds on a path,
whether a path holds a `.git` directory (`os.Stat(filepath.Join(p, ".git"))`
succeeding with `IsDir()`), and `filepath.Dir`. -/
structure FSEnv where
  abs : String → Option String
  statOk : String → Bool
  hasGitDir : String → Bool
  dir : String → String

/-- Model of `Config.FindUser`: first user matching alias, GitHub username or email. -/
def FindUser (c : Config) (identifier : String) : Option User :=
  c.Users.find? fun u =>
    u.Alias == identifier || u.GitHubUsername == identifier || u.Email == identifier

/-- Model of `Config.FindUserByAlias`: first user with the given alias. -/
def FindUserByAlias (c : Config) (a : String) : Option User :=
  c.Users.find? fun u => u.Alias == a

/-- The duplicate scan inside `Config.AddUser`: first collision (alias,
then email, then GitHub username, per element in list order) yields the
corresponding error message. -/
def checkDup (user : User) : List User → Option String
  | [] => none
  | u :: rest =>
    if u.Alias == user.Alias then
      some ("user with alias '" ++ user.Alias ++ "' already exists")
    else if u.Email == user.Email then
      some ("user with email " ++ user.Email ++ " already exists")
    else if u.GitHubUsername == user.GitHubUsername then
      some ("user with GitHub username " ++ user.GitHubUsername ++ " already exists")
    else checkDup user rest

/-- Model of `Config.AddUser`: reject on any alias/email/username collision,
otherwise append. -/
def AddUser (c : Config) (user : User) : Except String Config :=
  match checkDup user c.Users with
  | some e => .error e
  | none => .ok { c with Users := c.Users ++ [user] }

/-- The caller-visible state after an `AddUser` call: the new config on
success, the untouched one on failure (the Go method mutates its receiver
only on the success path). -/
def addUserStep (c : Config) (user : User) : Config :=
  match AddUser c user with
  | .ok c' => c'
  | .error _ => c

/-- Model of `Config.AddWorkspace`: reject a duplicate path, reject an unknown user
alias, otherwise append. -/
def AddWorkspace (c : Config) (path userAlias : String) : Except String Config :=
  if c.Workspaces.any (fun ws => ws.Path == path) then
    .error ("workspace at '" ++ path ++ "' already exists")
  else if (FindUserByAlias c userAlias).isNone then
    .error ("user '" ++ userAlias ++ "' not found")
  else
    .ok { c with Workspaces := c.Workspaces ++ [Workspace.mk path userAlias] }

/-- The in-place update loop of `Config.AddBinding`: rewrite the alias of
the first binding with the given path, `none` when no binding matches. -/
def updateBinding (path userAlias : String) : List Binding → Option (List Binding)
  | [] => none
  | b :: rest =>
    if b.Path == path then some ({ b with User := userAlias } :: rest)
    else (updateBinding path userAlias rest).map (b :: ·)

/-- Model of `Config.AddBinding`: upsert for an existing path (no user validation on
that branch), otherwise validate the alias and append. -/
def AddBinding (c : Config) (path userAlias : String) : Except String Config :=
  match updateBinding path userAlias c.Bindings with
  | some bs => .ok { c with Bindings := bs }
  | none =>
    if (FindUserByAlias c userAlias).isNone then
      .error ("user '" ++ userAlias ++ "' not found")
    else
      .ok { c with Bindings := c.Bindings ++ [Binding.mk path userAlias] }

/-- Model of `isPathInside childPath parentPath` (identity core): absolutize both
(`false` on failure), force a trailing separator on the parent, then test
separator-delimited prefix or equality. `abs` is the `filepath.Abs` of the
environment. -/
def isPathInside (abs : String → Option String) (childPath parentPath : String) : Bool :=
  match abs childPath with
  | none => false
  | some child =>
    match abs parentPath with
    | none => false
    | some parent0 =>
      let parent := if goHasSuffix parent0 sep then parent0 else parent0 ++ sep
      goStartsWith (child ++ sep) parent || child == goTrimSuffix parent sep

/-- Model of `Config.FindWorkspaceByPath`: first workspace whose path contains the
given path. -/
def FindWorkspaceByPath (env : FSEnv) (c : Config) (path : String) : Option Workspace :=
  c.Workspaces.find? fun ws => isPathInside env.abs path ws.Path

/-- Model of `Config.FindBindingByPath`: first binding with exactly the given path. -/
def FindBindingByPath (c : Config) (path : String) : Option Binding :=
  c.Bindings.find? fun b => b.Path == path

/-- Model of `Config.CleanupInvalidPaths`: drop every workspace and binding whose
path fails `os.Stat`, returning the new config and the removal count. -/
def CleanupInvalidPaths (statOk : String → Bool) (c : Config) : Config × Nat :=
  let validWorkspaces := c.Workspaces.filter fun ws => statOk ws.Path
  let removedW := c.Workspaces.countP fun ws => !(statOk ws.Path)
  let validBindings := c.Bindings.filter fun b => statOk b.Path
  let removedB := c.Bindings.countP fun b => !(statOk b.Path)
  ({ c with Workspaces := validWorkspaces, Bindings := validBindings }, removedW + removedB)

/-- How an identity was resolved (`identity.ResolutionSource`). -/
inductive ResolutionSource where
  | workspace
  | binding
  | global
deriving DecidableEq, Repr

/-- The resolved identity and its provenance (`identity.Resolution`). The Go
`User` pointer is always non-nil at construction sites, so it is a plain
field here. -/
structure Resolution where
  User : User
  Alias : String
  Source : ResolutionSource
  Path : String
deriving DecidableEq, Repr

/-- The loop of `findGitRoot`, fuel-indexed: check for a `.git` directory at
`current`, otherwise ascend to `filepath.Dir current`, stopping with `""`
when the parent equals the current path (filesystem root). `none` means the
fuel ran out before the loop exited; theorems supply enough fuel. -/
def findGitRootAux (env : FSEnv) : Nat → String → Option String
  | 0, _ => none
  | fuel + 1, current =>
    if env.hasGitDir current then some current
    else
      let parent := env.dir current
      if parent == current then some ""
      else findGitRootAux env fuel parent

/-- Model of `findGitRoot`: absolutize (returning `""` on failure) and walk up. -/
def findGitRoot (env : FSEnv) (fuel : Nat) (path : String) : Option String :=
  match env.abs path with
  | none => some ""
  | some absPath => findGitRootAux env fuel absPath

/-- Step 3 of `ResolveIdentity`: the global active-user fallback. The second
component is the Go `error` result, which is `nil` at every return site. -/
def resolveGlobal (cfg : Config) : Option Resolution × Option String :=
  if cfg.ActiveUser != "" then
    match FindUserByAlias cfg cfg.ActiveUser with
    | some u => (some ⟨u, cfg.ActiveUser, .global, ""⟩, none)
    | none => (none, none)
  else (none, none)

/-- Step 2 of `ResolveIdentity`: find the enclosing repository root and look
up a binding for it; fall through to the global fallback when the root is
empty, no binding matches, or the binding's alias does not resolve. Outer
`none` only when the root-discovery fuel ran out. -/
def resolveBinding (env : FSEnv) (fuel : Nat) (cfg : Config) (absPath : String) :
    Option (Option Resolution × Option String) :=
  match findGitRoot env fuel absPath with
  | none => none
  | some repoRoot =>
    if repoRoot != "" then
      match FindBindingByPath cfg repoRoot with
      | some b =>
        match FindUserByAlias cfg b.User with
        | some u => some (some ⟨u, b.User, .binding, b.Path⟩, none)
        | none => some (resolveGlobal cfg)
      | none => some (resolveGlobal cfg)
    else some (resolveGlobal cfg)

/-- Model of `ResolveIdentity cfg currentPath`: absolutize best-effort (keeping the
original path when `filepath.Abs` fails), then try workspace containment,
repository binding, and the global active user in that order. -/
def ResolveIdentity (env : FSEnv) (fuel : Nat) (cfg : Config) (currentPath : String) :
    Option (Option Resolution × Option String) :=
  let absPath := (env.abs currentPath).getD currentPath
  match FindWorkspaceByPath env cfg absPath with
  | some ws =>
    match FindUserByAlias cfg ws.User with
    | some u => some (some ⟨u, ws.User, .workspace, ws.Path⟩, none)
    | none => resolveBinding env fuel cfg absPath
  | none => resolveBinding env fuel cfg absPath

/-- The config-mutating core of `cmd.runDelete`: find the user by
identifier, drop every user with that alias, and clear `ActiveUser` when it
referenced the removed alias. `none` models the "user not found" command
error. -/
def runDeleteCore (cfg : Config) (identifier : String) : Option Config :=
  match FindUser cfg identifier with
  | none => none
  | some user =>
    let newUsers := cfg.Users.filter fun u => !(u.Alias == user.Alias)
    let cfg1 := { cfg with Users := newUsers }
    some (if cfg1.ActiveUser == user.Alias then { cfg1 with ActiveUser := "" } else cfg1)

/-! ### Concrete environments and configurations used by the witnesses -/

/-- Identity-style `filepath.Abs`: already-clean absolute paths resolve to
themselves, matching Go's `filepath.Abs` on such inputs. -/
def absId : String → Option String := fun s => some s

/-- Concrete `filepath.Dir` table for the chain `/a/b/c → /a/b → /a → /`. -/
def demoDir (s : String) : String :=
  if s == "/a/b/c" then "/a/b" else if s == "/a/b" then "/a" else "/"

/-- Environment over `demoDir` with no `.git` directory anywhere. -/
def demoEnv : FSEnv := ⟨absId, fun _ => false, fun _ => false, demoDir⟩

/-- Concrete `filepath.Dir` table for paths under `/home/u`. -/
def demoDirHome (s : String) : String :=
  if s == "/home/u/work/proj1" then "/home/u/work"
  else if s == "/home/u/work" then "/home/u"
  else if s == "/home/u" then "/home"
  else "/"

/-- Environment where `/home/u/work/proj1` is a repository root. -/
def demoEnvHome : FSEnv :=
  ⟨absId, fun _ => true, fun s => s == "/home/u/work/proj1", demoDirHome⟩

/-- Sample user records. -/
def alice : User := ⟨"alice", "Alice", "alice@x.com", "alicegh", ""⟩

/-- Second sample user. -/
def bob : User := ⟨"bob", "Bob", "bob@x.com", "bobgh", ""⟩

/-- Third sample user. -/
def carol : User := ⟨"carol", "Carol", "carol@x.com", "carolgh", ""⟩

/-- Config with a workspace, an overlapping second workspace, a binding for
the repository root, and a global active user: every resolution source is
populated. -/
def cfgPriority : Config :=
  ⟨"1", "carol", [alice, bob, carol],
    [⟨"/home/u/work", "alice"⟩, ⟨"/home/u", "bob"⟩],
    [⟨"/home/u/work/proj1", "carol"⟩]⟩

/-- Config whose first workspace alias is dangling while a binding and its
user exist. -/
def cfgDangling : Config :=
  ⟨"1", "", [carol], [⟨"/home/u/work", "ghost"⟩], [⟨"/home/u/work/proj1", "carol"⟩]⟩

/-- Config with only a global active user. -/
def cfgGlobal : Config := ⟨"1", "carol", [carol], [], []⟩

/-- Config with a single user, for duplicate-add tests. -/
def cfgDup : Config := ⟨"1", "", [alice], [], []⟩

/-- A user colliding with `alice` on the alias field only. -/
def aliceClone : User := ⟨"alice", "Other", "other@x.com", "othergh", ""⟩

/-- Config with two users and one workspace, for binding-upsert tests. -/
def cfgAB : Config := ⟨"1", "", [alice, bob], [⟨"/w", "alice"⟩], []⟩

/-- Config with one binding whose alias matches no user. -/
def cfgGhost : Config := ⟨"1", "", [], [], [⟨"/p", "x"⟩]⟩

/-! ### Helper lemmas -/

/-- The duplicate scan of `AddUser` reports nothing exactly when the new
user collides with no existing user on any of the three unique fields. -/
theorem checkDup_eq_none_iff (user : User) (us : List User) :
    checkDup user us = none ↔
      ∀ u ∈ us, u.Alias ≠ user.Alias ∧ u.Email ≠ user.Email ∧
        u.GitHubUsername ≠ user.GitHubUsername := by
  induction us with
  | nil => simp [checkDup]
  | cons u rest ih =>
    simp only [checkDup, List.mem_cons, forall_eq_or_imp]
    split_ifs with h1 h2 h3
    · simp only [beq_iff_eq] at h1
      simp [h1]
    · simp only [beq_iff_eq] at h2
      simp [h2]
    · simp only [beq_iff_eq] at h3
      simp [h3]
    · simp only [beq_iff_eq] at h1 h2 h3
      simp [ih, h1, h2, h3]

/-- Counting elements that fail `p` inside `filter p l` yields zero. -/
theorem countP_not_filter {α : Type} (p : α → Bool) (l : List α) :
    (l.filter p).countP (fun a => !(p a)) = 0 := by
  rw [List.countP_eq_zero]
  intro a ha
  simp [(List.mem_filter.mp ha).2]

/-! ### C2 -/

/-- C2: `addUser` rejects any alias/email/githubUsername collision with an
error and leaves the Users collection exactly as it was, and appends the
user at the end when there is no collision. -/
theorem addUser_unique_atomic (c : Config) (user : User) :
    ((∃ u ∈ c.Users, u.Alias = user.Alias ∨ u.Email = user.Email ∨
        u.GitHubUsername = user.GitHubUsername) →
      (∃ e, AddUser c user = .error e) ∧ addUserStep c user = c) ∧
    ((∀ u ∈ c.Users, u.Alias ≠ user.Alias ∧ u.Email ≠ user.Email ∧
        u.GitHubUsername ≠ user.GitHubUsername) →
      AddUser c user = .ok { c with Users := c.Users ++ [user] }) := by
  constructor
  · rintro ⟨u, hu, hcol⟩
    have hnone : checkDup user c.Users ≠ none := by
      intro hn
      have h := (checkDup_eq_none_iff user c.Users).mp hn u hu
      tauto
    obtain ⟨e, he⟩ := Option.ne_none_iff_exists'.mp hnone
    refine ⟨⟨e, ?_⟩, ?_⟩
    · simp [AddUser, he]
    · simp [addUserStep, AddUser, he]
  · intro h
    have hn : checkDup user c.Users = none := (checkDup_eq_none_iff user c.Users).mpr h
    simp [AddUser, hn]

/-- C2 witness: adding a user whose alias collides with `alice` fails and
leaves the config untouched. -/
theorem addUser_unique_atomic_witness :
    (∃ e, AddUser cfgDup aliceClone = .error e) ∧ addUserStep cfgDup aliceClone = cfgDup :=
  (addUser_unique_atomic cfgDup aliceClone).1 ⟨alice, by decide, Or.inl (by decide)⟩

/-! ### C7 -/

/-- C7: `cleanupInvalidPaths` is idempotent for a fixed filesystem: the
second call changes nothing and reports zero removals, and the first call's
count is the number of workspaces plus bindings whose path does not exist. -/
theorem cleanupInvalidPaths_idempotent (statOk : String → Bool) (c : Config) :
    (CleanupInvalidPaths statOk (CleanupInvalidPaths statOk c).1).1 =
      (CleanupInvalidPaths statOk c).1 ∧
    (CleanupInvalidPaths statOk (CleanupInvalidPaths statOk c).1).2 = 0 ∧
    (CleanupInvalidPaths statOk c).2 =
      (c.Workspaces.countP fun ws => !(statOk ws.Path)) +
        (c.Bindings.countP fun b => !(statOk b.Path)) := by
  refine ⟨?_, ?_, rfl⟩
  · simp [CleanupInvalidPaths, List.filter_filter]
  · simp [CleanupInvalidPaths, countP_not_filter]

/-! ### C9 -/

/-- C9: removing a user clears `ActiveUser` exactly when it referenced the
removed alias, leaves it unchanged otherwise, and drops exactly the users
with that alias. -/
theorem runDelete_clears_activeUser (cfg : Config) (identifier : String) (user : User)
    (cfg' : Config) (hfind : FindUser cfg identifier = some user)
    (hrun : runDeleteCore cfg identifier = some cfg') :
    cfg'.Users = cfg.Users.filter (fun u => !(u.Alias == user.Alias)) ∧
    (cfg.ActiveUser = user.Alias → cfg'.ActiveUser = "") ∧
    (cfg.ActiveUser ≠ user.Alias → cfg'.ActiveUser = cfg.ActiveUser) := by
  unfold runDeleteCore at hrun
  rw [hfind] at hrun
  simp only [Option.some.injEq] at hrun
  subst hrun
  by_cases h : cfg.ActiveUser = user.Alias
  · simp [h]
  · simp [h]

/-- C9 witness: deleting `carol` from the global-only config clears the
active user that referenced her. -/
theorem runDelete_clears_activeUser_witness :
    ∃ cfg', runDeleteCore cfgGlobal "carol" = some cfg' ∧ cfg'.ActiveUser = "" :=
  ⟨{ cfgGlobal with ActiveUser := "", Users := [] },
    by decide,
    (runDelete_clears_activeUser cfgGlobal "carol" carol _ (by decide) (by decide)).2.1
      (by decide)⟩

/-! ### Helper lemmas for the binding upsert -/

/-- The update loop of `AddBinding` reports no match exactly when no binding
carries the given path. -/
theorem updateBinding_eq_none_iff (path a : String) (bs : List Binding) :
    updateBinding path a bs = none ↔ ∀ b ∈ bs, b.Path ≠ path := by
  induction bs with
  | nil => simp [updateBinding]
  | cons b rest ih =>
    simp only [updateBinding, List.mem_cons, forall_eq_or_imp]
    by_cases h : (b.Path == path) = true
    · simp [h, eq_of_beq h]
    · have h' : b.Path ≠ path := by simpa using h
      simp [h, h', ih]

/-- The update loop of `AddBinding` rewrites the alias of the first binding
whose path matches and keeps everything else in place. -/
theorem updateBinding_first (path a : String) (pre : List Binding) (b : Binding)
    (post : List Binding) (hpre : ∀ x ∈ pre, x.Path ≠ path) (hb : b.Path = path) :
    updateBinding path a (pre ++ b :: post) =
      some (pre ++ { b with User := a } :: post) := by
  induction pre with
  | nil => simp [updateBinding, hb]
  | cons x rest ih =>
    have hx : ¬(x.Path == path) = true := by
      simpa using hpre x (by simp)
    have hrest : ∀ y ∈ rest, y.Path ≠ path := fun y hy => hpre y (by simp [hy])
    simp [updateBinding, hx, ih hrest]

/-- A list with at most one element satisfying `p` either has none, or
splits around a unique one. -/
theorem countP_le_one_decomp {α : Type} (p : α → Bool) (l : List α)
    (h : l.countP p ≤ 1) :
    (∀ x ∈ l, p x = false) ∨
      ∃ pre x post, l = pre ++ x :: post ∧ p x = true ∧
        (∀ y ∈ pre, p y = false) ∧ (∀ y ∈ post, p y = false) := by
  induction l with
  | nil => exact Or.inl (by simp)
  | cons a rest ih =>
    by_cases ha : p a = true
    · right
      refine ⟨[], a, rest, by simp, ha, by simp, ?_⟩
      intro y hy
      have hz : rest.countP p = 0 := by
        rw [List.countP_cons_of_pos _ _ ha] at h
        omega
      have := List.countP_eq_zero.mp hz y hy
      simpa using this
    · have ha' : p a = false := by simpa using ha
      have hrest : rest.countP p ≤ 1 := by
        rw [List.countP_cons_of_neg _ _ ha] at h
        exact h
      rcases ih hrest with h1 | ⟨pre, x, post, hsplit, hx, hpre, hpost⟩
      · refine Or.inl ?_
        intro y hy
        rcases List.mem_cons.mp hy with rfl | hy
        · exact ha'
        · exact h1 y hy
      · refine Or.inr ⟨a :: pre, x, post, by simp [hsplit], hx, ?_, hpost⟩
        intro y hy
        rcases List.mem_cons.mp hy with rfl | hy
        · exact ha'
        · exact hpre y hy

/-! ### C3 -/

/-- C3: with both aliases valid and at most one binding per path,
`addBinding(P, a)` then `addBinding(P, b)` both succeed and leave exactly
one binding for `P`, carrying alias `b`; `addWorkspace` by contrast rejects
a duplicate path outright. -/
theorem addBinding_upsert (c : Config) (path a b : String) (ua ub : User)
    (ha : FindUserByAlias c a = some ua) (hb : FindUserByAlias c b = some ub)
    (hinv : c.Bindings.countP (fun x => x.Path == path) ≤ 1) :
    (∃ c1 c2, AddBinding c path a = .ok c1 ∧ AddBinding c1 path b = .ok c2 ∧
      c2.Bindings.filter (fun x => x.Path == path) = [⟨path, b⟩]) ∧
    (∀ p2 al, c.Workspaces.any (fun ws => ws.Path == p2) →
      AddWorkspace c p2 al = .error ("workspace at '" ++ p2 ++ "' already exists")) := by
  constructor
  · rcases countP_le_one_decomp _ _ hinv with hnone | ⟨pre, x, post, hsplit, hx, hpre, hpost⟩
    · have hne : ∀ y ∈ c.Bindings, y.Path ≠ path := by
        intro y hy
        simpa using hnone y hy
      have hup1 : updateBinding path a c.Bindings = none :=
        (updateBinding_eq_none_iff path a c.Bindings).mpr hne
      have h1 : AddBinding c path a = .ok { c with Bindings := c.Bindings ++ [⟨path, a⟩] } := by
        simp [AddBinding, hup1, ha]
      have hup2 : updateBinding path b (c.Bindings ++ [⟨path, a⟩]) =
          some (c.Bindings ++ [⟨path, b⟩]) :=
        updateBinding_first path b c.Bindings ⟨path, a⟩ [] hne rfl
      refine ⟨_, { c with Bindings := c.Bindings ++ [⟨path, b⟩] }, h1, ?_, ?_⟩
      · simp [AddBinding, hup2]
      · have : List.filter (fun x => x.Path == path) c.Bindings = [] :=
          List.filter_eq_nil_iff.mpr (by intro y hy; simpa using hne y hy)
        simp [List.filter_append, this]
    · have hpre' : ∀ y ∈ pre, y.Path ≠ path := by
        intro y hy
        simpa using hpre y hy
      have hpost' : ∀ y ∈ post, (y.Path == path) = false := hpost
      have hxeq : x.Path = path := by simpa using hx
      have h1 : AddBinding c path a =
          .ok { c with Bindings := pre ++ { x with User := a } :: post } := by
        simp [AddBinding, hsplit, updateBinding_first path a pre x post hpre' hxeq]
      have hup2 : updateBinding path b (pre ++ { x with User := a } :: post) =
          some (pre ++ { x with User := b } :: post) :=
        updateBinding_first path b pre { x with User := a } post hpre' hxeq
      refine ⟨_, { c with Bindings := pre ++ { x with User := b } :: post }, h1, ?_, ?_⟩
      · simp [AddBinding, hup2]
      · have hfpre : List.filter (fun x => x.Path == path) pre = [] :=
          List.filter_eq_nil_iff.mpr (by intro y hy; simpa using hpre' y hy)
        have hfpost : List.filter (fun x => x.Path == path) post = [] :=
          List.filter_eq_nil_iff.mpr (by intro y hy; simp [hpost' y hy])
        obtain ⟨xp, xu⟩ := x
        simp only at hxeq
        subst hxeq
        simp [List.filter_append, hfpre, hfpost]
  · intro p2 al hdup
    simp [AddWorkspace, hdup]

/-- C3 witness: on a config with users `alice` and `bob` and no binding for
`/p`, the two upserting calls leave exactly one binding `⟨/p, bob⟩`. -/
theorem addBinding_upsert_witness :
    ∃ c1 c2, AddBinding cfgAB "/p" "alice" = .ok c1 ∧ AddBinding c1 "/p" "bob" = .ok c2 ∧
      c2.Bindings.filter (fun x => x.Path == "/p") = [⟨"/p", "bob"⟩] :=
  (addBinding_upsert cfgAB "/p" "alice" "bob" alice bob (by decide) (by decide)
    (by decide)).1

/-! ### C10 -/

/-- C10: the upsert branch of `addBinding` performs no user validation — it
succeeds and rewrites the first matching binding's alias for any alias,
dangling or not — while the append branch rejects an unknown alias. -/
theorem addBinding_skips_validation (c : Config) (path a : String) :
    (∀ pre b post, c.Bindings = pre ++ b :: post → (∀ x ∈ pre, x.Path ≠ path) →
      b.Path = path →
      AddBinding c path a = .ok { c with Bindings := pre ++ { b with User := a } :: post }) ∧
    ((∀ b ∈ c.Bindings, b.Path ≠ path) → FindUserByAlias c a = none →
      AddBinding c path a = .error ("user '" ++ a ++ "' not found")) := by
  constructor
  · intro pre b post hsplit hpre hb
    simp [AddBinding, hsplit, updateBinding_first path a pre b post hpre hb]
  · intro hnone hu
    simp [AddBinding, (updateBinding_eq_none_iff path a c.Bindings).mpr hnone, hu]

/-- C10 witness: upserting the binding for `/p` with the alias `ghost`,
which matches no user, still succeeds and installs the dangling alias. -/
theorem addBinding_skips_validation_witness :
    FindUserByAlias cfgGhost "ghost" = none ∧
    AddBinding cfgGhost "/p" "ghost" = .ok { cfgGhost with Bindings := [⟨"/p", "ghost"⟩] } :=
  ⟨by decide,
    (addBinding_skips_validation cfgGhost "/p" "ghost").1 [] ⟨"/p", "x"⟩ [] rfl
      (by simp) rfl⟩

/-! ### Helper lemmas for path containment -/

/-- Data of the separator string. -/
theorem sep_data : sep.data = ['/'] := rfl

/-- Dropping the trailing separator that was just appended restores the
original string. -/
theorem goTrimSuffix_append_sep (p : String) : goTrimSuffix (p ++ sep) sep = p := by
  have hsuf : goHasSuffix (p ++ sep) sep = true := by
    rw [goHasSuffix, String.data_append]
    exact List.isSuffixOf_iff_suffix.mpr (List.suffix_append _ _)
  apply String.ext
  simp only [goTrimSuffix, hsuf, if_true]
  rw [String.data_append, sep_data]
  simp [List.take_left]

/-- Appending the separator to both sides turns the prefix test into
"equal or separator-delimited prefix". -/
theorem goStartsWith_append_sep (c p : String) :
    goStartsWith (c ++ sep) (p ++ sep) = true ↔
      (c = p ∨ goStartsWith c (p ++ sep) = true) := by
  rw [goStartsWith, goStartsWith, String.data_append, String.data_append, sep_data,
    List.isPrefixOf_iff_prefix, List.isPrefixOf_iff_prefix, List.prefix_concat_iff]
  constructor
  · rintro (h | h)
    · exact Or.inl (String.ext (List.append_cancel_right h)).symm
    · exact Or.inr h
  · rintro (h | h)
    · exact Or.inl (by rw [h])
    · exact Or.inr h

/-- Characterization of `isPathInside` when both paths absolutize and the
parent does not end in a separator (the shape `filepath.Abs` produces for
every non-root path): containment holds exactly when the child equals the
parent or extends it past a separator. -/
theorem isPathInside_characterization (abs : String → Option String) (cp pp c p : String)
    (hc : abs cp = some c) (hp : abs pp = some p) (hsep : goHasSuffix p sep = false) :
    (isPathInside abs cp pp = true ↔ (c = p ∨ goStartsWith c (p ++ sep) = true)) := by
  rw [isPathInside, hc, hp]
  simp only [hsep, Bool.false_eq_true, if_false, goTrimSuffix_append_sep,
    Bool.or_eq_true, beq_iff_eq]
  rw [goStartsWith_append_sep]
  tauto

/-! ### C5 -/

/-- C5: `isPathInside` returns `false` (never an error) when either path
fails to absolutize, and otherwise holds exactly when the absolutized child
equals the absolutized parent or lies under it with a separator-delimited
prefix match. -/
theorem isPathInside_spec (abs : String → Option String) (cp pp : String) :
    ((abs cp = none ∨ abs pp = none) → isPathInside abs cp pp = false) ∧
    (∀ c p, abs cp = some c → abs pp = some p → goHasSuffix p sep = false →
      (isPathInside abs cp pp = true ↔ (c = p ∨ goStartsWith c (p ++ sep) = true))) := by
  constructor
  · rintro (h | h)
    · simp [isPathInside, h]
    · cases hc : abs cp <;> simp [isPathInside, hc, h]
  · intro c p hc hp hsep
    exact isPathInside_characterization abs cp pp c p hc hp hsep

/-- C5 witness: the three containment examples from the specification. -/
theorem isPathInside_spec_witness :
    isPathInside absId "/a/b/c" "/a/b" = true ∧
    isPathInside absId "/a/bc" "/a/b" = false ∧
    isPathInside absId "/a/b" "/a/b" = true :=
  ⟨((isPathInside_spec absId "/a/b/c" "/a/b").2 "/a/b/c" "/a/b" rfl rfl (by decide)).mpr
      (Or.inr (by decide)),
    by decide,
    ((isPathInside_spec absId "/a/b" "/a/b").2 "/a/b" "/a/b" rfl rfl (by decide)).mpr
      (Or.inl rfl)⟩

/-! ### C6 -/

/-- The ascent loop of `findGitRoot` exits within the fuel bound whenever
some iterate of `filepath.Dir` is a fixed point, and yields `""` when no
visited directory carries a `.git` marker. -/
theorem findGitRootAux_terminates (env : FSEnv) :
    ∀ (n fuel : Nat) (start : String),
    env.dir (env.dir^[n] start) = env.dir^[n] start → n < fuel →
    (∃ r, findGitRootAux env fuel start = some r) ∧
    ((∀ k ≤ n, env.hasGitDir (env.dir^[k] start) = false) →
      findGitRootAux env fuel start = some "") := by
  intro n
  induction n with
  | zero =>
    intro fuel start hfix hlt
    obtain ⟨f, rfl⟩ : ∃ f, fuel = f + 1 := ⟨fuel - 1, by omega⟩
    simp only [Function.iterate_zero, id_eq] at hfix
    constructor
    · by_cases hg : env.hasGitDir start
      · exact ⟨start, by simp [findGitRootAux, hg]⟩
      · exact ⟨"", by simp [findGitRootAux, hg, hfix]⟩
    · intro hng
      have hg := hng 0 (Nat.le_refl 0)
      simp only [Function.iterate_zero, id_eq] at hg
      simp [findGitRootAux, hg, hfix]
  | succ n ih =>
    intro fuel start hfix hlt
    obtain ⟨f, rfl⟩ : ∃ f, fuel = f + 1 := ⟨fuel - 1, by omega⟩
    by_cases hg : env.hasGitDir start
    · refine ⟨⟨start, by simp [findGitRootAux, hg]⟩, ?_⟩
      intro hng
      have h0 := hng 0 (Nat.zero_le _)
      simp only [Function.iterate_zero, id_eq] at h0
      simp [hg] at h0
    · by_cases hroot : (env.dir start == start) = true
      · refine ⟨⟨"", by simp [findGitRootAux, hg, hroot]⟩, ?_⟩
        intro _
        simp [findGitRootAux, hg, hroot]
      · have hfix' : env.dir (env.dir^[n] (env.dir start)) = env.dir^[n] (env.dir start) := by
          rw [← Function.iterate_succ_apply]
          exact hfix
        have hlt' : n < f := by omega
        obtain ⟨hex, hrec⟩ := ih f (env.dir start) hfix' hlt'
        constructor
        · obtain ⟨r, hr⟩ := hex
          exact ⟨r, by simp [findGitRootAux, hg, hroot, hr]⟩
        · intro hng
          have hshift : ∀ k ≤ n, env.hasGitDir (env.dir^[k] (env.dir start)) = false := by
            intro k hk
            rw [← Function.iterate_succ_apply]
            exact hng (k + 1) (by omega)
          simp [findGitRootAux, hg, hroot, hrec hshift]

/-- C6: `findGitRoot` terminates within a number of iterations bounded by
the directory depth — each step replaces the current path by its parent and
the loop exits once the parent equals the current path — and returns the
"not found" value `""` when no marker directory exists anywhere up to the
filesystem root. -/
theorem findGitRoot_terminates (env : FSEnv) (fuel n : Nat) (path absPath : String)
    (habs : env.abs path = some absPath)
    (hfix : env.dir (env.dir^[n] absPath) = env.dir^[n] absPath)
    (hfuel : n < fuel) :
    (∃ r, findGitRoot env fuel path = some r) ∧
    ((∀ k ≤ n, env.hasGitDir (env.dir^[k] absPath) = false) →
      findGitRoot env fuel path = some "") := by
  obtain ⟨hex, hng⟩ := findGitRootAux_terminates env n fuel absPath hfix hfuel
  constructor
  · obtain ⟨r, hr⟩ := hex
    exact ⟨r, by simp [findGitRoot, habs, hr]⟩
  · intro h
    simp [findGitRoot, habs, hng h]

/-- C6 witness: on the chain `/a/b/c → /a/b → /a → /` with no `.git`
anywhere, discovery returns `""` with fuel one past the depth. -/
theorem findGitRoot_terminates_witness :
    findGitRoot demoEnv 4 "/a/b/c" = some "" :=
  (findGitRoot_terminates demoEnv 4 3 "/a/b/c" "/a/b/c" rfl (by decide) (by decide)).2
    (by decide)

/-! ### Helper lemmas for the resolution engine -/

/-- Linear search finds the marked element of a decomposition whose earlier
elements all fail the predicate. -/
theorem find?_first {α : Type} (p : α → Bool) (pre : List α) (x : α) (post : List α)
    (hpre : ∀ a ∈ pre, p a = false) (hx : p x = true) :
    List.find? p (pre ++ x :: post) = some x := by
  induction pre with
  | nil => simp [List.find?_cons_of_pos _ hx]
  | cons a rest ih =>
    have ha : ¬p a = true := by simp [hpre a (by simp)]
    rw [List.cons_append, List.find?_cons_of_neg _ ha]
    exact ih fun y hy => hpre y (by simp [hy])

/-- The global fallback never produces an error: every return site of the
Go function carries a nil error. -/
theorem resolveGlobal_err_none (cfg : Config) : (resolveGlobal cfg).2 = none := by
  unfold resolveGlobal
  by_cases h : (cfg.ActiveUser != "") = true
  · simp only [h, if_true]
    cases hu : FindUserByAlias cfg cfg.ActiveUser <;> simp [hu]
  · simp [h]

/-- The binding step either runs out of fuel or returns a nil-error pair. -/
theorem resolveBinding_shape (env : FSEnv) (fuel : Nat) (cfg : Config) (p : String) :
    resolveBinding env fuel cfg p = none ∨
      ∃ res, resolveBinding env fuel cfg p = some (res, none) := by
  have hg : resolveGlobal cfg = ((resolveGlobal cfg).1, none) := by
    rw [← resolveGlobal_err_none cfg]
  unfold resolveBinding
  cases hr : findGitRoot env fuel p with
  | none => exact Or.inl rfl
  | some root =>
    simp only []
    by_cases hne : (root != "") = true
    · simp only [hne, if_true]
      cases hb : FindBindingByPath cfg root with
      | none => exact Or.inr ⟨(resolveGlobal cfg).1, by rw [← hg]⟩
      | some b =>
        simp only []
        cases hu : FindUserByAlias cfg b.User with
        | none => exact Or.inr ⟨(resolveGlobal cfg).1, by rw [← hg]⟩
        | some u => exact Or.inr ⟨_, rfl⟩
    · simp only [Bool.not_eq_true] at hne
      simp only [hne, Bool.false_eq_true, if_false]
      exact Or.inr ⟨(resolveGlobal cfg).1, by rw [← hg]⟩

/-- The binding step never produces an error when it completes. -/
theorem resolveBinding_err_none (env : FSEnv) (fuel : Nat) (cfg : Config) (p : String)
    (res : Option Resolution) (err : Option String)
    (h : resolveBinding env fuel cfg p = some (res, err)) : err = none := by
  rcases resolveBinding_shape env fuel cfg p with hs | ⟨res', hs⟩ <;> rw [hs] at h
  · cases h
  · simp only [Option.some.injEq, Prod.mk.injEq] at h
    exact h.2.symm

/-- The resolution engine never produces an error when it completes. -/
theorem resolveIdentity_err_none (env : FSEnv) (fuel : Nat) (cfg : Config) (p : String)
    (res : Option Resolution) (err : Option String)
    (h : ResolveIdentity env fuel cfg p = some (res, err)) : err = none := by
  simp only [ResolveIdentity] at h
  cases hw : FindWorkspaceByPath env cfg ((env.abs p).getD p) with
  | none =>
    rw [hw] at h
    exact resolveBinding_err_none env fuel cfg _ res err h
  | some ws =>
    rw [hw] at h
    simp only [] at h
    cases hu : FindUserByAlias cfg ws.User with
    | none =>
      rw [hu] at h
      exact resolveBinding_err_none env fuel cfg _ res err h
    | some u =>
      rw [hu] at h
      simp only [Option.some.injEq, Prod.mk.injEq] at h
      exact h.2.symm

/-! ### C1 -/

/-- C1: when the first workspace containing the (absolutized) path has an
alias that resolves to a user, `ResolveIdentity` returns exactly that user
with source `workspace` and the workspace's path — for every binding list,
every active user, and any fuel: the binding and global sources are never
consulted. Earlier workspaces in list order that do not contain the path
are skipped, so the first containing workspace in list order wins. -/
theorem resolveIdentity_workspace_priority (env : FSEnv) (fuel : Nat) (cfg : Config)
    (P : String) (pre : List Workspace) (ws : Workspace) (post : List Workspace) (u : User)
    (hws : cfg.Workspaces = pre ++ ws :: post)
    (hpre : ∀ w ∈ pre, isPathInside env.abs ((env.abs P).getD P) w.Path = false)
    (hin : isPathInside env.abs ((env.abs P).getD P) ws.Path = true)
    (hu : FindUserByAlias cfg ws.User = some u) :
    ResolveIdentity env fuel cfg P = some (some ⟨u, ws.User, .workspace, ws.Path⟩, none) := by
  have hfind : FindWorkspaceByPath env cfg ((env.abs P).getD P) = some ws := by
    rw [FindWorkspaceByPath, hws]
    exact find?_first _ pre ws post hpre hin
  simp [ResolveIdentity, hfind, hu]

/-- C1 witness: with a workspace, a second overlapping workspace, a binding
for the repository root, and a global active user all present, resolution
inside the first workspace returns its user `alice` with source
`workspace`. -/
theorem resolveIdentity_workspace_priority_witness :
    ResolveIdentity demoEnvHome 5 cfgPriority "/home/u/work/proj1" =
      some (some ⟨alice, "alice", .workspace, "/home/u/work"⟩, none) :=
  resolveIdentity_workspace_priority demoEnvHome 5 cfgPriority "/home/u/work/proj1"
    [] ⟨"/home/u/work", "alice"⟩ [⟨"/home/u", "bob"⟩] alice rfl (by simp)
    (by decide) (by decide)

/-! ### C4 -/

/-- C4: when the first workspace containing the path has a dangling alias,
`ResolveIdentity` neither errors nor returns a zero user: it continues with
exactly the binding step (which itself falls through to the global
fallback), and that continuation never carries an error. -/
theorem resolveIdentity_dangling_fallthrough (env : FSEnv) (fuel : Nat) (cfg : Config)
    (P : String) (pre : List Workspace) (ws : Workspace) (post : List Workspace)
    (hws : cfg.Workspaces = pre ++ ws :: post)
    (hpre : ∀ w ∈ pre, isPathInside env.abs ((env.abs P).getD P) w.Path = false)
    (hin : isPathInside env.abs ((env.abs P).getD P) ws.Path = true)
    (hu : FindUserByAlias cfg ws.User = none) :
    ResolveIdentity env fuel cfg P = resolveBinding env fuel cfg ((env.abs P).getD P) ∧
    (∀ res err, resolveBinding env fuel cfg ((env.abs P).getD P) = some (res, err) →
      err = none) := by
  have hfind : FindWorkspaceByPath env cfg ((env.abs P).getD P) = some ws := by
    rw [FindWorkspaceByPath, hws]
    exact find?_first _ pre ws post hpre hin
  exact ⟨by simp [ResolveIdentity, hfind, hu],
    fun res err h => resolveBinding_err_none env fuel cfg _ res err h⟩

/-- C4 witness: the workspace for `/home/u/work` references the deleted
alias `ghost`, and resolution under it falls through to the binding step,
which resolves the repository binding to `carol`. -/
theorem resolveIdentity_dangling_fallthrough_witness :
    ResolveIdentity demoEnvHome 5 cfgDangling "/home/u/work/proj1" =
      resolveBinding demoEnvHome 5 cfgDangling "/home/u/work/proj1" ∧
    resolveBinding demoEnvHome 5 cfgDangling "/home/u/work/proj1" =
      some (some ⟨carol, "carol", .binding, "/home/u/work/proj1"⟩, none) :=
  ⟨(resolveIdentity_dangling_fallthrough demoEnvHome 5 cfgDangling "/home/u/work/proj1"
      [] ⟨"/home/u/work", "ghost"⟩ [] rfl (by simp) (by decide) (by decide)).1,
    by decide⟩

/-! ### C8 -/

/-- C8: when no containing workspace has a resolving alias and the
discovered repository root has no binding with a resolving alias,
`ResolveIdentity` returns the global fallback: the active user's record
with source `global` and empty path when `ActiveUser` is non-empty and
resolves, and the "no resolution" value otherwise; moreover the engine
never returns an error for any input. -/
theorem resolveIdentity_global_fallback (env : FSEnv) (fuel : Nat) (cfg : Config)
    (P root : String)
    (hws : ∀ ws ∈ cfg.Workspaces,
      isPathInside env.abs ((env.abs P).getD P) ws.Path = true →
      FindUserByAlias cfg ws.User = none)
    (hroot : findGitRoot env fuel ((env.abs P).getD P) = some root)
    (hbind : root ≠ "" → ∀ b, FindBindingByPath cfg root = some b →
      FindUserByAlias cfg b.User = none) :
    ResolveIdentity env fuel cfg P = some (resolveGlobal cfg) ∧
    (∀ u, cfg.ActiveUser ≠ "" → FindUserByAlias cfg cfg.ActiveUser = some u →
      resolveGlobal cfg = (some ⟨u, cfg.ActiveUser, .global, ""⟩, none)) ∧
    ((cfg.ActiveUser = "" ∨ FindUserByAlias cfg cfg.ActiveUser = none) →
      resolveGlobal cfg = (none, none)) ∧
    (∀ (env' : FSEnv) (fuel' : Nat) (cfg' : Config) (p' : String)
        (res : Option Resolution) (err : Option String),
      ResolveIdentity env' fuel' cfg' p' = some (res, err) → err = none) := by
  have hrb : resolveBinding env fuel cfg ((env.abs P).getD P) = some (resolveGlobal cfg) := by
    unfold resolveBinding
    rw [hroot]
    simp only []
    by_cases hne : root = ""
    · subst hne
      simp
    · have hne' : (root != "") = true := bne_iff_ne.mpr hne
      simp only [hne', if_true]
      cases hb : FindBindingByPath cfg root with
      | none => rfl
      | some b =>
        simp only []
        rw [hbind hne b hb]
  refine ⟨?_, ?_, ?_, resolveIdentity_err_none⟩
  · simp only [ResolveIdentity]
    cases hw : FindWorkspaceByPath env cfg ((env.abs P).getD P) with
    | none => exact hrb
    | some ws =>
      simp only []
      have hmem := List.mem_of_find?_eq_some hw
      have hpred := List.find?_some hw
      rw [hws ws hmem hpred]
      exact hrb
  · intro u hne hu
    unfold resolveGlobal
    rw [if_pos (bne_iff_ne.mpr hne), hu]
  · rintro (h | h)
    · simp [resolveGlobal, h]
    · unfold resolveGlobal
      by_cases hne : (cfg.ActiveUser != "") = true
      · simp [hne, h]
      · simp [hne]

/-- C8 witness: with no workspaces, no bindings and no repository root, the
engine returns the global resolution for the active user `carol`. -/
theorem resolveIdentity_global_fallback_witness :
    ResolveIdentity demoEnv 4 cfgGlobal "/a/b/c" = some (resolveGlobal cfgGlobal) ∧
    resolveGlobal cfgGlobal = (some ⟨carol, "carol", .global, ""⟩, none) :=
  ⟨(resolveIdentity_global_fallback demoEnv 4 cfgGlobal "/a/b/c" "" (by decide) (by decide)
      (fun h _ _ => absurd rfl h)).1,
    by decide⟩

end BGit
